import Mathlib

/-!
Verification of the structural-analysis pipeline of the codebase-deep-analyzer
repository: a shallow embedding, in Lean, of the data model and the pure
algorithmic core of `src/core/analyzer.rs` and `src/core/parser.rs`, together
with theorems settling the specification's claims about the cross-reference
engine, the structural parser's extraction logic, and the analysis
orchestrator (static and streaming modes).

External effects (file reads, the HTTP enrichment backend, the process
environment) are modelled as explicit function parameters; tree-sitter query
matches are modelled as the capture records the grammar hands to the
extraction loops.  All machine strings are Lean `String`s; Rust `str` helpers
(`contains`, `lines`, `split`, `trim_matches`, `trim_start_matches`) are
re-implemented below with Rust's semantics.
-/

namespace CDA

/-! ## Rust string-primitive models -/

/-- Whether `pat` is an initial run of `l`
(the list-level engine behind Rust `str::starts_with`). -/
def listStarts : List Char → List Char → Bool
  | [], _ => true
  | _ :: _, [] => false
  | p :: ps, c :: cs => p == c && listStarts ps cs

/-- Whether some suffix of `l` starts with `pat`. -/
def hasSub (pat : List Char) : List Char → Bool
  | [] => listStarts pat []
  | c :: rest => listStarts pat (c :: rest) || hasSub pat rest

/-- Model of Rust `str::contains(pat)`: substring containment. -/
def containsSub (hay pat : String) : Bool :=
  hasSub pat.toList hay.toList

/-- Whitespace trim at the character-list level (the engine behind Rust
`str::trim`, for the ASCII whitespace the sources contain). -/
def trimL (l : List Char) : List Char :=
  ((l.dropWhile Char.isWhitespace).reverse.dropWhile Char.isWhitespace).reverse

/-- Model of Rust `str::trim`. -/
def rustTrim (s : String) : String :=
  String.mk (trimL s.toList)

/-- Model of Rust `str::starts_with(pat)`. -/
def startsWithS (s pat : String) : Bool :=
  listStarts pat.toList s.toList

/-- Split at newline characters (the splitting engine of `str::lines`). -/
def splitNl : List Char → List (List Char)
  | [] => [[]]
  | '\n' :: rest => [] :: splitNl rest
  | c :: rest =>
    match splitNl rest with
    | [] => [[c]]
    | h :: t => (c :: h) :: t

/-- Strip one trailing carriage return (used on `\n`-terminated lines). -/
def stripCrL (l : List Char) : List Char :=
  match l.reverse with
  | '\r' :: rest => rest.reverse
  | _ => l

/-- Model of Rust `str::lines()`: split at `\n`, strip a `\r` from lines that
were `\n`-terminated, and drop the empty segment after a final `\n`. -/
def rustLines (s : String) : List String :=
  let parts := splitNl s.toList
  let init := (parts.take (parts.length - 1)).map (fun l =>
    String.mk (stripCrL l))
  match parts.getLast? with
  | none => []
  | some last => if last.isEmpty then init else init ++ [String.mk last]

/-- Joining collected doc lines with single spaces (Rust `join(" ")`). -/
def intercalateSpace : List String → String
  | [] => ""
  | [x] => x
  | x :: y :: rest => x ++ " " ++ intercalateSpace (y :: rest)

/-! ## Data model (`src/core/analyzer.rs`, `src/core/discovery.rs`) -/

/-- The `Language` enum from `src/core/discovery.rs`. -/
inductive Language
  | Rust | TypeScript | JavaScript | Python | Go | Java
  | CSharp | Cpp | C | Ruby | Shell | Unknown
deriving DecidableEq, Repr

/-- The `{:?}` (Debug) rendering of a `Language`, used in summary strings. -/
def languageDebug : Language → String
  | .Rust => "Rust" | .TypeScript => "TypeScript" | .JavaScript => "JavaScript"
  | .Python => "Python" | .Go => "Go" | .Java => "Java" | .CSharp => "CSharp"
  | .Cpp => "Cpp" | .C => "C" | .Ruby => "Ruby" | .Shell => "Shell"
  | .Unknown => "Unknown"

/-- The `ExportKind` enum from `src/core/analyzer.rs`. -/
inductive ExportKind
  | Function | Class | Type | Const | Enum | Trait | Struct | Module
deriving DecidableEq, Repr

/-- The `Display` impl for `ExportKind`. -/
def kindDisplay : ExportKind → String
  | .Function => "fn"
  | .Class => "class"
  | .Type => "type"
  | .Const => "const"
  | .Enum => "enum"
  | .Trait => "trait/interface"
  | .Struct => "struct"
  | .Module => "mod"

/-- The `Export` record from `src/core/analyzer.rs`. -/
structure Export where
  name : String
  kind : ExportKind
  signature : Option String
  description : String
  line_number : Nat
deriving DecidableEq, Repr

/-- The `Import` record from `src/core/analyzer.rs`. -/
structure Import where
  source : String
  items : List String
  is_external : Bool
deriving DecidableEq, Repr

/-- The `ModuleAnalysis` record from `src/core/analyzer.rs`. -/
structure ModuleAnalysis where
  path : String
  language : Language
  exports : List Export
  imports : List Import
  summary : String
  has_deep_analysis : Bool
deriving DecidableEq, Repr

/-- The `Analysis` aggregate from `src/core/analyzer.rs`. -/
structure Analysis where
  modules : List ModuleAnalysis
deriving DecidableEq, Repr

/-- The `GapKind` enum from `src/core/analyzer.rs`. -/
inductive GapKind
  | UnusedExport | MissingDocumentation | DeadCode | UntestedFunction
  | UndocumentedCommand
deriving DecidableEq, Repr

/-- The `Gap` record from `src/core/analyzer.rs`. -/
structure Gap where
  kind : GapKind
  description : String
  location : Option String
deriving DecidableEq, Repr

/-- The `CrossReference` record from `src/core/analyzer.rs`.  The `HashMap` of
dependencies is modelled as its association-list insertion sequence. -/
structure CrossReference where
  dependencies : List (String × List String)
  gaps : List Gap
  external_deps : List String
  architecture_overview : Option String
deriving DecidableEq, Repr

/-- The `SourceFile` record from `src/core/discovery.rs`. -/
structure SourceFile where
  path : String
  language : Language
  size : Nat
deriving DecidableEq, Repr

/-- The `FileInventory` record from `src/core/discovery.rs`, restricted to the field the
orchestrator's core algorithms read. -/
structure FileInventory where
  source_files : List SourceFile
deriving DecidableEq, Repr

/-- The `ParseResult` record from `src/core/parser.rs`. -/
structure ParseResult where
  exports : List Export
  imports : List Import
deriving DecidableEq, Repr

/-! ## Cross-reference engine (`cross_reference`, analyzer.rs lines 609-667) -/

/-- Lookup in a Rust `HashMap` built by a sequence of inserts: the LAST
insert of a key wins (`all_exports.insert` overwrites). -/
def hmLookup (l : List (String × String)) (k : String) : Option String :=
  (l.reverse.find? (fun p => p.1 == k)).map (fun p => p.2)

/-- Pass 1 of `cross_reference`: the insertion sequence of the
`all_exports : HashMap<name, path>` map. -/
def allExports (a : Analysis) : List (String × String) :=
  a.modules.flatMap (fun m => m.exports.map (fun e => (e.name, m.path)))

/-- Pass 2 of `cross_reference`: every import item inserted into the
`used_exports` set — items of internal imports that resolve in `all_exports`.
Set membership is list membership. -/
def usedExports (a : Analysis) : List String :=
  a.modules.flatMap (fun m =>
    (m.imports.filter (fun i => !i.is_external)).flatMap (fun i =>
      i.items.filter (fun it => (hmLookup (allExports a) it).isSome)))

/-- Pass 2 of `cross_reference`: one module's raw dependency list (defining
paths of resolved items), before sort/dedup. -/
def moduleDeps (a : Analysis) (m : ModuleAnalysis) : List String :=
  (m.imports.filter (fun i => !i.is_external)).flatMap (fun i =>
    i.items.filterMap (fun it => hmLookup (allExports a) it))

/-- Sorted insertion used to model `Vec::sort` on strings. -/
def insertSorted (x : String) : List String → List String
  | [] => [x]
  | y :: ys => if x ≤ y then x :: y :: ys else y :: insertSorted x ys

/-- Model of `Vec::sort` on strings (any stable comparison sort). -/
def sortStr (l : List String) : List String :=
  l.foldr insertSorted []

/-- Model of `Vec::dedup`: remove consecutive duplicates. -/
def dedupConsec : List String → List String
  | [] => []
  | [x] => [x]
  | x :: y :: rest =>
    if x == y then dedupConsec (y :: rest) else x :: dedupConsec (y :: rest)

/-- The `Gap` value pushed by `cross_reference` for an undocumented unused
export `e` of module `m`. -/
def mkGap (m : ModuleAnalysis) (e : Export) : Gap :=
  { kind := GapKind.MissingDocumentation
    description :=
      "Public " ++ kindDisplay e.kind ++ " `" ++ e.name ++
        "` has no documentation"
    location := some (m.path ++ ":" ++ toString e.line_number) }

/-- The gap-detection pass of `cross_reference` over one module: skip `main`
and names containing `test`, then emit a gap iff the export is unused and
undocumented. -/
def gapsForModule (used : List String) (m : ModuleAnalysis) : List Gap :=
  m.exports.filterMap (fun e =>
    if e.name == "main" || containsSub e.name "test" then none
    else if !(used.contains e.name) && e.description == "" then
      some (mkGap m e)
    else none)

/-- Field `external_deps`: the set of external import sources, sorted. -/
def externalDeps (a : Analysis) : List String :=
  dedupConsec (sortStr (a.modules.flatMap (fun m =>
    (m.imports.filter (fun i => i.is_external)).map (fun i => i.source))))

/-- Function `cross_reference` from analyzer.rs (the pure engine; the LLM-assisted
variant only adds the optional overview, see `cross_reference_with_llm`). -/
def cross_reference (a : Analysis) : CrossReference :=
  { dependencies :=
      a.modules.map (fun m => (m.path, dedupConsec (sortStr (moduleDeps a m))))
    gaps := a.modules.flatMap (gapsForModule (usedExports a))
    external_deps := externalDeps a
    architecture_overview := none }

/-! ## Doc-comment association (`extract_doc_comment`, parser.rs 384-417) -/

/-- Model of Rust `str::trim_start_matches("///")`: strip every leading run
of three slashes. -/
def stripDocSlashes : List Char → List Char
  | '/' :: '/' :: '/' :: rest => stripDocSlashes rest
  | l => l

/-- The text pushed for one collected doc line: the trimmed line with its
leading `///` runs stripped, then trimmed again. -/
def stripDocLine (trimmed : String) : String :=
  rustTrim (String.mk (stripDocSlashes trimmed.toList))

/-- The backward walk of `extract_doc_comment`: `current` is the loop
variable (0-indexed row one past the row being inspected), `docs` the lines
pushed so far (bottom-most first).  Returns `none` exactly when the Rust
`lines.get(prev_idx)?` would return early (unreachable for in-range rows). -/
def edcLoop (lines : List String) : Nat → List String → Option (List String)
  | 0, docs => some docs
  | c + 1, docs =>
    match lines[c]? with
    | none => none
    | some prevLine =>
      let trimmed := rustTrim prevLine
      if startsWithS trimmed "///" then
        edcLoop lines c (docs ++ [stripDocLine trimmed])
      else if startsWithS trimmed "//!" || startsWithS trimmed "#[" ||
          (trimmed == "" && !docs.isEmpty) then
        edcLoop lines c docs
      else
        some docs

/-- Function `extract_doc_comment(content, line)` from parser.rs: walk
backward from the 1-indexed declaration line, collect contiguous `///` lines
(skipping `//!`, attribute lines, and — only once a doc line has been
collected — blank lines), reverse, join with single spaces and trim. -/
def extract_doc_comment (content : String) (line : Nat) : Option String :=
  let lines := rustLines content
  if line == 0 || line > lines.length then none
  else
    match edcLoop lines (line - 1) [] with
    | none => none
    | some docs =>
      let docs := docs.reverse
      if docs.isEmpty then none
      else some (rustTrim (intercalateSpace docs))

/-- Classifier for the walk's first branch: a documentation-comment line. -/
def isDocLine (l : String) : Bool :=
  startsWithS (rustTrim l) "///"

/-- Classifier for the unconditionally skipped lines: module comments and
attribute/annotation lines. -/
def isSkipLine (l : String) : Bool :=
  startsWithS (rustTrim l) "//!" || startsWithS (rustTrim l) "#["

/-- Classifier for blank lines (blank after trimming). -/
def isBlankLine (l : String) : Bool :=
  rustTrim l == ""

/-- A line at which the backward walk unconditionally stops: neither a doc
comment, nor a module comment, nor an attribute line, nor blank. -/
def isStopLine (l : String) : Bool :=
  !(isDocLine l) && !(isSkipLine l) && !(isBlankLine l)

/-- The doc texts a block of lines contributes, in top-to-bottom order:
each doc line's trimmed text with its `///` markers stripped. -/
def docTextsOf (block : List String) : List String :=
  block.filterMap (fun l =>
    if isDocLine l then some (stripDocLine (rustTrim l)) else none)

/-! ## Rust export extraction (`parse_rust`, parser.rs 95-146)

The tree-sitter grammar is an external collaborator: a query match is
modelled as the record of what its captures carry — the visibility
modifier's text, the name node's text and 0-indexed row, the matched item
pattern (which of `@func`/`@struct`/… fired) and the item node's row.  The
per-match processing loop of `parse_rust` is translated below. -/

/-- One match of the export query of `parse_rust`, as handed over by
tree-sitter: capture texts and rows. -/
structure RustExportMatch where
  visText : String
  nameText : String
  nameRow : Nat
  itemTag : ExportKind
  itemRow : Nat
deriving DecidableEq, Repr

/-- The per-match body of `parse_rust`'s export loop: `is_pub` is
`vis.contains("pub")`, the line number is the name row plus one, the
signature is the trimmed source line of the item node for functions, and the
export is kept iff `is_pub && !name.is_empty()`. -/
def processRustMatch (content : String) (mt : RustExportMatch) : Option Export :=
  let lines := rustLines content
  let is_pub := containsSub mt.visText "pub"
  let name := mt.nameText
  let line_number := mt.nameRow + 1
  let signature : Option String :=
    match mt.itemTag with
    | ExportKind.Function => (lines[mt.itemRow]?).map rustTrim
    | _ => none
  if is_pub && !(name == "") then
    some { name := name, kind := mt.itemTag, signature := signature
           description := (extract_doc_comment content line_number).getD ""
           line_number := line_number }
  else none

/-- The export list `parse_rust` builds from the query's match sequence. -/
def parseRustExports (content : String) (ms : List RustExportMatch) :
    List Export :=
  ms.filterMap (processRustMatch content)

/-- Modelled from the spec: the invariant "only represents a symbol the
source language's visibility rules mark as publicly exported".  In Rust a
declaration is publicly exported iff its visibility modifier is exactly
`pub`; the restricted forms `pub(crate)`, `pub(super)`, `pub(self)` and
`pub(in path)` confine the item to (part of) its own crate, so they are not
publicly exported. -/
def rustVisibilityPublic (visText : String) : Bool :=
  visText == "pub"

/-! ## Import extraction (parser.rs 148-181 and 361-381) -/

/-- Model of Rust `str::split("::")` at the character-list level: greedy
left-to-right splitting at each `::` occurrence. -/
def splitCC : List Char → List (List Char)
  | [] => [[]]
  | ':' :: ':' :: rest => [] :: splitCC rest
  | c :: rest =>
    match splitCC rest with
    | [] => [[c]]
    | h :: t => (c :: h) :: t

/-- The segments of a `use` path split at `::`, as strings. -/
def rustSplitPath (s : String) : List String :=
  (splitCC s.toList).map String.mk

/-- The `Import` built by `parse_rust`'s import loop from the text of the
`@path` capture of a `use_declaration`. -/
def rustImportOf (path : String) : Import :=
  let is_external := !(path.startsWith "crate::") &&
    !(path.startsWith "self::") && !(path.startsWith "super::")
  let parts := rustSplitPath path
  let source := parts.headD ""
  let items := if parts.length > 1 then parts.drop 1 else []
  { source := source, items := items, is_external := is_external }

/-- Quote characters `"` `'` `` ` `` trimmed off JS/TS module strings. -/
def isQuoteChar (c : Char) : Bool :=
  c == Char.ofNat 34 || c == Char.ofNat 39 || c == Char.ofNat 96

/-- Model of Rust `str::trim_matches(pred)`: drop matching characters from
both ends. -/
def trimMatchesQuote (s : String) : String :=
  String.mk (((s.toList.dropWhile isQuoteChar).reverse.dropWhile
    isQuoteChar).reverse)

/-- Function `extract_import_from_node` from parser.rs, given the raw text of
the string child of an `import_statement`: strip quotes, keep the whole
module string as `source`, leave `items` empty, and classify external by the
`.`/`/`/`@/` start markers. -/
def extract_import_from_node (sourceRaw : String) : Import :=
  let source := trimMatchesQuote sourceRaw
  let is_external := !(source.startsWith ".") && !(source.startsWith "/") &&
    !(source.startsWith "@/")
  { source := source, items := [], is_external := is_external }

/-! ## JS/TS export extraction (`extract_export_from_node`, parser.rs
250-358) and JSDoc association (`extract_jsdoc_comment`, parser.rs 420-481)

A tree-sitter JS/TS node is modelled as the record of what the extraction
walk reads from it: its kind string, its `name`-field node (text and
0-indexed row) when present, its 0-indexed start row, and its children. -/

/-- Model of Rust `str::ends_with(pat)`. -/
def endsWithS (s pat : String) : Bool :=
  listStarts pat.toList.reverse s.toList.reverse

/-- One stripping step of Rust `trim_end_matches("*/")`, on the reversed
character list. -/
def stripStarSlashRev : List Char → List Char
  | '/' :: '*' :: rest => stripStarSlashRev rest
  | l => l

/-- Model of Rust `str::trim_end_matches("*/")`. -/
def stripBlockCloseEnd (l : List Char) : List Char :=
  (stripStarSlashRev l.reverse).reverse

/-- Model of Rust `str::trim_start_matches("/**")`. -/
def stripSlashStarStar : List Char → List Char
  | '/' :: '*' :: '*' :: rest => stripSlashStarStar rest
  | l => l

/-- Model of Rust `str::trim_start_matches("/*")`. -/
def stripSlashStar : List Char → List Char
  | '/' :: '*' :: rest => stripSlashStar rest
  | l => l

/-- The backward walk of `extract_jsdoc_comment`: `current` is the loop
variable, `in_block` whether a `*/` close has been seen, `docs` the lines
pushed so far (bottom-most first).  Returns `none` exactly when the Rust
`lines.get(prev_idx)?` would return early. -/
def ejcLoop (lines : List String) : Nat → Bool → List String → Option (List String)
  | 0, _, docs => some docs
  | c + 1, in_block, docs =>
    match lines[c]? with
    | none => none
    | some prevLine =>
      let trimmed := rustTrim prevLine
      if endsWithS trimmed "*/" && !in_block then
        let text := rustTrim (String.mk (stripBlockCloseEnd trimmed.toList))
        let docs' :=
          if !(text == "") && !(startsWithS text "/*") then
            docs ++ [rustTrim (String.mk
              (text.toList.dropWhile (fun ch => ch == '*')))]
          else docs
        ejcLoop lines c true docs'
      else if in_block then
        if startsWithS trimmed "/**" || startsWithS trimmed "/*" then
          let text := rustTrim (String.mk
            (stripSlashStar (stripSlashStarStar trimmed.toList)))
          some (if !(text == "") then docs ++ [text] else docs)
        else
          let text := rustTrim (String.mk
            (trimmed.toList.dropWhile (fun ch => ch == '*')))
          ejcLoop lines c in_block (if !(text == "") then docs ++ [text] else docs)
      else if trimmed == "" then
        ejcLoop lines c in_block docs
      else
        some docs

/-- Function `extract_jsdoc_comment(content, line)` from parser.rs: walk
backward through a `/** ... */` block above the 1-indexed line, reverse,
keep the lines before the first `@`-tag line, join with single spaces and
trim. -/
def extract_jsdoc_comment (content : String) (line : Nat) : Option String :=
  let lines := rustLines content
  if line == 0 || line > lines.length then none
  else
    match ejcLoop lines (line - 1) false [] with
    | none => none
    | some docs =>
      let docs := docs.reverse
      if docs.isEmpty then none
      else
        let desc := docs.takeWhile (fun l => !(startsWithS l "@"))
        if desc.isEmpty then none
        else some (rustTrim (intercalateSpace desc))

/-- A tree-sitter node of the JS/TS syntax tree, as the extraction reads
it: kind string, optional `name`-field node (text and 0-indexed row),
0-indexed start row, children in order. -/
inductive JsNode where
  | node (kind : String) (nameNode : Option (String × Nat)) (startRow : Nat)
      (children : List JsNode)

/-- The node's kind string. -/
def JsNode.kind : JsNode → String
  | .node k _ _ _ => k

/-- The node's `name`-field node, when present. -/
def JsNode.nameNode : JsNode → Option (String × Nat)
  | .node _ n _ _ => n

/-- The node's 0-indexed start row. -/
def JsNode.startRow : JsNode → Nat
  | .node _ _ r _ => r

/-- The node's children, in tree order. -/
def JsNode.children : JsNode → List JsNode
  | .node _ _ _ c => c

/-- The inner loop of the `lexical_declaration` arm: the FIRST
`variable_declarator` child with a name yields a `Const` export. -/
def findDeclarator (content : String) : List JsNode → Option Export
  | [] => none
  | d :: rest =>
    if d.kind == "variable_declarator" then
      match d.nameNode with
      | some (name, row) =>
        some { name := name, kind := ExportKind.Const, signature := none
               description := (extract_jsdoc_comment content (row + 1)).getD ""
               line_number := row + 1 }
      | none => findDeclarator content rest
    else findDeclarator content rest

/-- One arm of the child loop of `extract_export_from_node`: what one child
of the `export_statement` contributes.  `exportRow` is the row of the
`export_statement` node itself (used for the function signature). -/
def jsExportOfChild (content : String) (lines : List String) (exportRow : Nat)
    (child : JsNode) : Option Export :=
  if child.kind == "function_declaration" || child.kind == "function" then
    match child.nameNode with
    | some (name, row) =>
      some { name := name, kind := ExportKind.Function
             signature := (lines[exportRow]?).map rustTrim
             description := (extract_jsdoc_comment content (row + 1)).getD ""
             line_number := row + 1 }
    | none => none
  else if child.kind == "class_declaration" || child.kind == "class" then
    match child.nameNode with
    | some (name, row) =>
      some { name := name, kind := ExportKind.Class, signature := none
             description := (extract_jsdoc_comment content (row + 1)).getD ""
             line_number := row + 1 }
    | none => none
  else if child.kind == "lexical_declaration" then
    findDeclarator content child.children
  else if child.kind == "type_alias_declaration" then
    match child.nameNode with
    | some (name, row) =>
      some { name := name, kind := ExportKind.Type, signature := none
             description := "", line_number := row + 1 }
    | none => none
  else if child.kind == "interface_declaration" then
    match child.nameNode with
    | some (name, row) =>
      some { name := name, kind := ExportKind.Trait, signature := none
             description := "", line_number := row + 1 }
    | none => none
  else if child.kind == "enum_declaration" then
    match child.nameNode with
    | some (name, row) =>
      some { name := name, kind := ExportKind.Enum, signature := none
             description := "", line_number := row + 1 }
    | none => none
  else none

/-- Function `extract_export_from_node` from parser.rs: the first child of
the `export_statement` whose arm yields an export — at most ONE export per
export statement. -/
def extract_export_from_node (content : String) (lines : List String)
    (node : JsNode) : Option Export :=
  node.children.findSome? (jsExportOfChild content lines node.startRow)

/-- The reading of one emitted JS/TS export: the declaration child (or
declarator) that produced it, with the kind classification of the source's
match arms.  Every such child sits under an `export` keyword, so it is a
publicly exported declaration. -/
def jsChildExplains (c : JsNode) (e : Export) : Prop :=
  ((c.kind = "function_declaration" ∨ c.kind = "function") ∧
    e.kind = ExportKind.Function ∧
    ∃ row, c.nameNode = some (e.name, row) ∧ e.line_number = row + 1) ∨
  ((c.kind = "class_declaration" ∨ c.kind = "class") ∧
    e.kind = ExportKind.Class ∧
    ∃ row, c.nameNode = some (e.name, row) ∧ e.line_number = row + 1) ∨
  (c.kind = "lexical_declaration" ∧ e.kind = ExportKind.Const ∧
    ∃ d ∈ c.children, d.kind = "variable_declarator" ∧
      ∃ row, d.nameNode = some (e.name, row) ∧ e.line_number = row + 1) ∨
  (c.kind = "type_alias_declaration" ∧ e.kind = ExportKind.Type ∧
    ∃ row, c.nameNode = some (e.name, row) ∧ e.line_number = row + 1) ∨
  (c.kind = "interface_declaration" ∧ e.kind = ExportKind.Trait ∧
    ∃ row, c.nameNode = some (e.name, row) ∧ e.line_number = row + 1) ∨
  (c.kind = "enum_declaration" ∧ e.kind = ExportKind.Enum ∧
    ∃ row, c.nameNode = some (e.name, row) ∧ e.line_number = row + 1)

/-! ## Analysis orchestrator (`analyze_static`, analyzer.rs 112-163)

File reads and grammar parsing reach outside the pure core, so they enter
the embedding as function parameters: `reads` maps a path to its content or
a read error (`fs::read_to_string`), `parseFn` is `parser::parse_file`. -/

/-- Recovery of a parse failure: `parse_file` errors collapse to the empty
structural result. -/
def parseOrEmpty (parseFn : String → Language → Except String ParseResult)
    (content : String) (lang : Language) : ParseResult :=
  match parseFn content lang with
  | .ok r => r
  | .error _ => ⟨[], []⟩

/-- The summary string `analyze_static` builds per module. -/
def staticSummary (lang : Language) (pr : ParseResult) : String :=
  if pr.exports.isEmpty then
    languageDebug lang ++ " file with no public exports"
  else
    languageDebug lang ++ " file with " ++ toString pr.exports.length ++
      " public exports"

/-- Function `analyze_static` from analyzer.rs: for each source file, read —
a failed read logs a warning and `continue`s to the next file — parse with
error recovery, and accumulate a module entry. -/
def analyze_static (reads : String → Except String String)
    (parseFn : String → Language → Except String ParseResult)
    (inv : FileInventory) : Analysis :=
  ⟨inv.source_files.filterMap (fun f =>
    match reads f.path with
    | .error _ => none
    | .ok content =>
      let pr := parseOrEmpty parseFn content f.language
      some ⟨f.path, f.language, pr.exports, pr.imports,
        staticSummary f.language pr, false⟩)⟩

/-! ## Retry with backoff (`analyze_module_with_llm_retry`, analyzer.rs
379-410)

The enrichment call is a parameter `call : Nat → Except String String`
mapping the attempt index to that attempt's outcome.  The embedding is
instrumented: alongside the result it returns the backoff delays slept (in
seconds, in order) and the number of calls made. -/

/-- Transient-failure classification: the error message contains a
rate-limit or overload signature. -/
def transientErr (s : String) : Bool :=
  containsSub s "rate_limit" || containsSub s "overloaded"

/-- Instrumented outcome of the retry loop. -/
structure RetryOutcome where
  result : Except String String
  delays : List Nat
  calls : Nat
deriving Repr

/-- The `for attempt in 0..max_retries` loop: sleep `2^attempt` seconds
before every attempt but the first, return on success or on a non-transient
error, remember the last transient error, and after the loop fail with it
(or the max-retries message). -/
def retryAux (call : Nat → Except String String) :
    Nat → Nat → Option String → List Nat → Nat → RetryOutcome
  | 0, _, lastErr, delays, calls =>
    ⟨.error (lastErr.getD "Max retries exceeded"), delays, calls⟩
  | fuel + 1, attempt, lastErr, delays, calls =>
    let delays' := if attempt > 0 then delays ++ [2 ^ attempt] else delays
    match call attempt with
    | .ok r => ⟨.ok r, delays', calls + 1⟩
    | .error e =>
      if transientErr e then
        retryAux call fuel (attempt + 1) (some e) delays' (calls + 1)
      else ⟨.error e, delays', calls + 1⟩

/-- Function `analyze_module_with_llm_retry` from analyzer.rs, instrumented
with its delays and call count. -/
def analyze_module_with_llm_retry (call : Nat → Except String String)
    (max_retries : Nat) : RetryOutcome :=
  retryAux call max_retries 0 none [] 0

/-! ## Streaming orchestrator (`analyze_streaming`, analyzer.rs 193-376) -/

/-- UTF-8 byte length of a string, Rust `str::len()`. -/
def contentByteLen (s : String) : Nat :=
  s.toList.foldl (fun n c => n + c.utf8Size) 0

/-- Model of the `LlmProvider` capability interface (messages as role-tagged
strings, the config's `max_tokens`; the unused float `temperature` is
omitted).  `analyze_streaming` and `cross_reference_with_llm` receive one
and — as the source shows — never call it. -/
def LlmProviderM : Type :=
  List (String × String) → Nat → Except String String

/-- Summary for a file skipped because its content exceeds the 100,000-byte
threshold. -/
def tooLargeSummary (lang : Language) (pr : ParseResult) : String :=
  languageDebug lang ++ " file with " ++ toString pr.exports.length ++
    " exports (too large for LLM)"

/-- Structural-only fallback summary after a terminal enrichment failure. -/
def fallbackSummary (lang : Language) (pr : ParseResult) : String :=
  languageDebug lang ++ " file with " ++ toString pr.exports.length ++
    " exports"

/-- Rust `deep.lines().next().unwrap_or("")`. -/
def firstLineOf (s : String) : String :=
  (rustLines s).headD ""

/-- Instrumented result of one spawned per-file task. -/
structure FileTaskResult where
  module : ModuleAnalysis
  delays : List Nat
  llmCalls : Nat
deriving Repr

/-- The body of the task `analyze_streaming` spawns per file whose read
succeeded: parse with recovery; if the content exceeds 100,000 bytes skip
enrichment with a placeholder summary and `has_deep_analysis = false`;
otherwise run the retry loop (3 attempts) — on success the summary is the
first line of the enrichment text and `has_deep_analysis = true`, on failure
the structural fallback with `has_deep_analysis = false`. -/
def processFileTask (llm : Nat → Except String String)
    (parseFn : String → Language → Except String ParseResult)
    (path : String) (lang : Language) (content : String) : FileTaskResult :=
  let pr := parseOrEmpty parseFn content lang
  if contentByteLen content > 100000 then
    ⟨⟨path, lang, pr.exports, pr.imports, tooLargeSummary lang pr, false⟩,
      [], 0⟩
  else
    let out := analyze_module_with_llm_retry llm 3
    match out.result with
    | .ok deep =>
      ⟨⟨path, lang, pr.exports, pr.imports, firstLineOf deep, true⟩,
        out.delays, out.calls⟩
    | .error _ =>
      ⟨⟨path, lang, pr.exports, pr.imports, fallbackSummary lang pr, false⟩,
        out.delays, out.calls⟩

/-- The placeholder module re-synthesized for a checkpointed path. -/
def placeholderModule (p : String) : ModuleAnalysis :=
  ⟨p, Language.Unknown, [], [], "(previously analyzed)", true⟩

/-- The module pushed inline when a file's content read fails. -/
def readFailureModule (path : String) (lang : Language) (e : String) :
    ModuleAnalysis :=
  ⟨path, lang, [], [], "Failed to read: " ++ e, false⟩

/-- The inventory filtered to the complement of the checkpoint set. -/
def remainingFiles (completed : List String) (inv : FileInventory) :
    List SourceFile :=
  inv.source_files.filter (fun f => !(completed.contains f.path))

/-- Model of Rust `slice::chunks(n)` (`n = 0` panics in Rust and is mapped
to the empty list here). -/
def chunksOf (n : Nat) (l : List SourceFile) : List (List SourceFile) :=
  if h : n = 0 ∨ l = [] then []
  else l.take n :: chunksOf n (l.drop n)
termination_by l.length
decreasing_by
  push_neg at h
  simp only [List.length_drop]
  have hl : 0 < l.length := List.length_pos.mpr h.2
  omega

/-- The modules one batch contributes to the accumulating analysis: modules
pushed inline at spawn time for read failures, then the joined task modules
in spawn order. -/
def batchModules (reads : String → Except String String)
    (parseFn : String → Language → Except String ParseResult)
    (llmFor : String → Nat → Except String String)
    (batch : List SourceFile) : List ModuleAnalysis :=
  (batch.filterMap (fun f =>
    match reads f.path with
    | .error e => some (readFailureModule f.path f.language e)
    | .ok _ => none)) ++
  (batch.filterMap (fun f =>
    match reads f.path with
    | .ok content =>
      some (processFileTask (llmFor f.path) parseFn f.path f.language
        content).module
    | .error _ => none))

/-- Function `analyze_streaming` from analyzer.rs: filter the inventory by
the checkpoint set `completed`, process the remaining files in batches of
`parallelism`, then append a placeholder module per checkpointed path.
`llmFor` models the hard-coded `analyze_module_with_llm` backend per path
and attempt; the `provider` argument is carried exactly as in the source —
which never calls it. -/
def analyze_streaming (reads : String → Except String String)
    (parseFn : String → Language → Except String ParseResult)
    (llmFor : String → Nat → Except String String)
    (provider : LlmProviderM)
    (completed : List String) (inv : FileInventory) (parallelism : Nat) :
    Analysis :=
  let remaining := remainingFiles completed inv
  let processed :=
    (chunksOf parallelism remaining).flatMap (batchModules reads parseFn llmFor)
  ⟨processed ++ completed.map placeholderModule⟩

/-! ## LLM-assisted cross-reference (`cross_reference_with_llm`, analyzer.rs
669-747) and the hard-coded Anthropic backend (546-606) -/

/-- Model of `std::path::Path::file_name().unwrap_or(path)` for ordinary
forward-slash paths. -/
def fileNameOf (p : String) : String :=
  ((p.splitOn "/").getLast?).getD p

/-- One line of the modules summary fed to the overview prompt. -/
def summaryLine (m : ModuleAnalysis) : String :=
  "- **" ++ fileNameOf m.path ++ "**: " ++ m.summary ++ "\n"

/-- The modules summary: the first 50 modules, plus a truncation marker when
more follow. -/
def buildModulesSummary (a : Analysis) : String :=
  String.join ((a.modules.take 50).map summaryLine) ++
    (if a.modules.length > 50 then "\n... and more modules\n" else "")

/-- The architecture-overview prompt of `cross_reference_with_llm`. -/
def overviewPrompt (modulesSummary : String) : String :=
  "Based on these modules, write a brief architecture overview (max 300 words):\n\n"
    ++ modulesSummary ++
    "\n\nInclude: System purpose, core components, data flow, entry points."

/-- Function `analyze_module_with_llm` from analyzer.rs, abstracted over the
process environment and the Anthropic HTTP endpoint: it fails when
`ANTHROPIC_API_KEY` is unset and otherwise hands its prompt to the
hard-coded backend — the `LlmProvider` capability plays no part. -/
def analyze_module_with_llm (env : String → Option String)
    (anthropicApi : String → Except String String)
    (prompt : String) : Except String String :=
  match env "ANTHROPIC_API_KEY" with
  | none => .error "ANTHROPIC_API_KEY not set"
  | some _ => anthropicApi prompt

/-- Function `cross_reference_with_llm` from analyzer.rs: the pure
`cross_reference`, plus — only when `ANTHROPIC_API_KEY` is set and the
hard-coded Anthropic call succeeds — the optional architecture overview.
The `_provider` argument is declared exactly as in the source: unused. -/
def cross_reference_with_llm (env : String → Option String)
    (anthropicApi : String → Except String String)
    (_provider : LlmProviderM) (a : Analysis) : CrossReference :=
  let crossref := cross_reference a
  match env "ANTHROPIC_API_KEY" with
  | none => crossref
  | some _ =>
    match anthropicApi (overviewPrompt (buildModulesSummary a)) with
    | .ok text => { crossref with architecture_overview := some text }
    | .error _ => crossref

/-- Concrete oversized content for exercising the 100,000-byte guard:
100,001 copies of `a`. -/
def bigContent : String :=
  String.mk (List.replicate 100001 'a')

/-- The source-file record carrying `bigContent` in the large-file scenario. -/
def bigFile : SourceFile :=
  ⟨"big.rs", Language.Rust, 100001⟩

/-! ## Lemmas about the cross-reference engine -/

/-- A `HashMap` lookup succeeds exactly when the key was inserted. -/
theorem hmLookup_isSome_iff (l : List (String × String)) (k : String) :
    (hmLookup l k).isSome = true ↔ ∃ v, (k, v) ∈ l := by
  unfold hmLookup
  rw [Option.isSome_map', List.find?_isSome]
  constructor
  · rintro ⟨p, hp, hk⟩
    exact ⟨p.2, by
      have : p.1 = k := by simpa using hk
      rw [← this]
      simpa using List.mem_reverse.mp hp⟩
  · rintro ⟨v, hv⟩
    exact ⟨(k, v), List.mem_reverse.mpr hv, by simp⟩

/-- Membership in one module's emitted gap list, phrased through the
emission condition of the source's gap loop. -/
theorem gapsForModule_mem (used : List String) (m : ModuleAnalysis) (g : Gap) :
    g ∈ gapsForModule used m ↔
      ∃ e ∈ m.exports, g = mkGap m e ∧ e.name ≠ "main" ∧
        containsSub e.name "test" = false ∧ e.name ∉ used ∧
        e.description = "" := by
  unfold gapsForModule
  rw [List.mem_filterMap]
  constructor
  · rintro ⟨e, he, hf⟩
    refine ⟨e, he, ?_⟩
    split at hf
    · cases hf
    · split at hf
      · rename_i h1 h2
        injection hf with hf
        simp only [Bool.or_eq_true, beq_iff_eq, not_or, Bool.not_eq_true] at h1
        simp only [Bool.and_eq_true, Bool.not_eq_true', beq_iff_eq] at h2
        refine ⟨hf.symm, h1.1, h1.2, ?_, h2.2⟩
        intro hmem
        have : used.contains e.name = true := List.elem_iff.mpr hmem
        rw [this] at h2
        cases h2.1
      · cases hf
  · rintro ⟨e, he, rfl, hmain, htest, hused, hdesc⟩
    refine ⟨e, he, ?_⟩
    have h1 : (e.name == "main" || containsSub e.name "test") = false := by
      simp [hmain, htest]
    have h2 : (!used.contains e.name && e.description == "") = true := by
      simp only [hdesc, Bool.and_eq_true, Bool.not_eq_true', beq_iff_eq]
      refine ⟨?_, trivial⟩
      by_contra hc
      rw [Bool.not_eq_false] at hc
      exact hused (List.elem_iff.mp hc)
    rw [if_neg (by simp [h1]), if_pos h2]

/-- Every export of every module is inserted into `all_exports`. -/
theorem mem_allExports (a : Analysis) {m : ModuleAnalysis} {e : Export}
    (hm : m ∈ a.modules) (he : e ∈ m.exports) :
    (e.name, m.path) ∈ allExports a := by
  unfold allExports
  rw [List.mem_flatMap]
  exact ⟨m, hm, List.mem_map.mpr ⟨e, he, rfl⟩⟩

/-- Membership in the `used_exports` set: the name occurs as an item of
some internal import and resolves in `all_exports`. -/
theorem mem_usedExports_iff (a : Analysis) (n : String) :
    n ∈ usedExports a ↔
      (∃ m ∈ a.modules, ∃ i ∈ m.imports, i.is_external = false ∧ n ∈ i.items)
        ∧ (hmLookup (allExports a) n).isSome = true := by
  unfold usedExports
  simp only [List.mem_flatMap, List.mem_filter, Bool.not_eq_true']
  constructor
  · rintro ⟨m, hm, i, ⟨hi, hext⟩, hn, hsome⟩
    exact ⟨⟨m, hm, i, hi, hext, hn⟩, hsome⟩
  · rintro ⟨⟨m, hm, i, hi, hext, hn⟩, hsome⟩
    exact ⟨m, hm, i, ⟨hi, hext⟩, hn, hsome⟩

/-- Claim C1: for every aggregated analysis, `cross_reference` emits a
`MissingDocumentation` gap for an export `E` if and only if `E.name` is not
exactly `"main"`, `E.name` does not contain the substring `"test"`
(case-sensitive), `E`'s description is empty, and no internal import item in
any module equals `E.name` (such an item is always resolved, because `E.name`
itself is in the export map); the equivalence runs through all four
combinations of (description empty, name used). -/
theorem cross_reference_gap_iff (a : Analysis) (g : Gap) :
    g ∈ (cross_reference a).gaps ↔
      ∃ m ∈ a.modules, ∃ e ∈ m.exports,
        g = mkGap m e ∧
        e.name ≠ "main" ∧
        containsSub e.name "test" = false ∧
        e.description = "" ∧
        ¬ ∃ m2 ∈ a.modules, ∃ i ∈ m2.imports,
            i.is_external = false ∧ e.name ∈ i.items := by
  have hgaps : (cross_reference a).gaps
      = a.modules.flatMap (gapsForModule (usedExports a)) := rfl
  rw [hgaps, List.mem_flatMap]
  constructor
  · rintro ⟨m, hm, hgm⟩
    obtain ⟨e, he, rfl, hmain, htest, hused, hdesc⟩ :=
      (gapsForModule_mem _ _ _).mp hgm
    refine ⟨m, hm, e, he, rfl, hmain, htest, hdesc, ?_⟩
    rintro ⟨m2, hm2, i, hi, hext, hit⟩
    have hsome : (hmLookup (allExports a) e.name).isSome = true :=
      (hmLookup_isSome_iff _ _).mpr ⟨m.path, mem_allExports a hm he⟩
    exact hused ((mem_usedExports_iff a _).mpr
      ⟨⟨m2, hm2, i, hi, hext, hit⟩, hsome⟩)
  · rintro ⟨m, hm, e, he, rfl, hmain, htest, hdesc, hnot⟩
    refine ⟨m, hm, (gapsForModule_mem _ _ _).mpr
      ⟨e, he, rfl, hmain, htest, ?_, hdesc⟩⟩
    intro hmem
    obtain ⟨⟨m2, hm2, i, hi, hext, hit⟩, _⟩ := (mem_usedExports_iff a _).mp hmem
    exact hnot ⟨m2, hm2, i, hi, hext, hit⟩


/-- Claim C9: the enrichment-capability (`LlmProvider`) argument passed to
`analyze_streaming` and to `cross_reference_with_llm` is never invoked: for
any two capabilities `p1`, `p2` and otherwise identical arguments both
operations return identical results, because every enrichment and overview
call goes through the hard-coded Anthropic HTTP backend (`llmFor` /
`anthropicApi`, gated on the `ANTHROPIC_API_KEY` environment entry) instead
of the supplied capability. -/
theorem provider_never_invoked
    (reads : String → Except String String)
    (parseFn : String → Language → Except String ParseResult)
    (llmFor : String → Nat → Except String String)
    (env : String → Option String)
    (anthropicApi : String → Except String String)
    (p1 p2 : LlmProviderM)
    (completed : List String) (inv : FileInventory) (par : Nat)
    (a : Analysis) :
    analyze_streaming reads parseFn llmFor p1 completed inv par
        = analyze_streaming reads parseFn llmFor p2 completed inv par ∧
      cross_reference_with_llm env anthropicApi p1 a
        = cross_reference_with_llm env anthropicApi p2 a :=
  ⟨rfl, rfl⟩

/-- Claim C3 counterexample: in static mode a file whose content read fails
is skipped entirely.  With a one-file inventory whose read fails, the
returned analysis has no module entry at all — the claim instead requires an
entry carrying the file's path, language and a summary naming the failure. -/
theorem analyze_static_read_failure_cex :
    (analyze_static (fun _ => .error "permission denied")
        (fun _ _ => .ok ⟨[], []⟩)
        ⟨[⟨"a.rs", Language.Rust, 10⟩]⟩).modules = [] := rfl

/-- Claim C3 (amended): in static mode a file whose content read fails
contributes no module entry (every module of the result stems from a file
whose read succeeded), and processing continues with the next file: every
file whose read succeeds still yields a module entry carrying its path. -/

theorem analyze_static_read_failure
    (reads : String → Except String String)
    (parseFn : String → Language → Except String ParseResult)
    (inv : FileInventory) :
    (∀ m ∈ (analyze_static reads parseFn inv).modules,
        ∃ c, reads m.path = .ok c) ∧
      (∀ f ∈ inv.source_files, (∃ c, reads f.path = .ok c) →
        ∃ m ∈ (analyze_static reads parseFn inv).modules, m.path = f.path) := by
  constructor
  · intro m hm
    obtain ⟨f, hf, hsome⟩ := List.mem_filterMap.mp hm
    revert hsome
    cases hr : reads f.path with
    | error e => intro h; cases h
    | ok c =>
      intro h
      injection h with h
      subst h
      exact ⟨c, hr⟩
  · rintro f hf ⟨c, hc⟩
    refine ⟨⟨f.path, f.language,
        (parseOrEmpty parseFn c f.language).exports,
        (parseOrEmpty parseFn c f.language).imports,
        staticSummary f.language (parseOrEmpty parseFn c f.language), false⟩,
      List.mem_filterMap.mpr ⟨f, hf, ?_⟩, rfl⟩
    rw [hc]

/-- A found result of `findSome?` comes from some list element. -/
theorem findSome_eq_some_mem (f : JsNode → Option Export) (l : List JsNode)
    (b : Export) (h : l.findSome? f = some b) : ∃ a ∈ l, f a = some b := by
  induction l with
  | nil => cases h
  | cons a rest ih =>
    rw [List.findSome?_cons] at h
    cases hfa : f a with
    | some b' =>
      rw [hfa] at h
      simp only at h
      exact ⟨a, by simp, by rw [hfa, h]⟩
    | none =>
      rw [hfa] at h
      simp only at h
      obtain ⟨a', ha', hfa'⟩ := ih h
      exact ⟨a', by simp [ha'], hfa'⟩

/-- Every export the declarator loop emits is a `Const` read off a
`variable_declarator` child. -/
theorem findDeclarator_some (content : String) (ds : List JsNode) (e : Export)
    (h : findDeclarator content ds = some e) :
    e.kind = ExportKind.Const ∧
      ∃ d ∈ ds, d.kind = "variable_declarator" ∧
        ∃ row, d.nameNode = some (e.name, row) ∧ e.line_number = row + 1 := by
  induction ds with
  | nil => cases h
  | cons d rest ih =>
    rw [findDeclarator] at h
    by_cases hk : (d.kind == "variable_declarator") = true
    · rw [if_pos hk] at h
      rcases hn : d.nameNode with _ | ⟨name, row⟩
      · rw [hn] at h
        simp only at h
        obtain ⟨hkind, d', hd', hrest⟩ := ih h
        exact ⟨hkind, d', by simp [hd'], hrest⟩
      · rw [hn] at h
        simp only [Option.some.injEq] at h
        subst h
        refine ⟨rfl, d, by simp, by simpa using hk, row, ?_, rfl⟩
        rw [hn]
    · rw [if_neg hk] at h
      obtain ⟨hkind, d', hd', hrest⟩ := ih h
      exact ⟨hkind, d', by simp [hd'], hrest⟩

/-- Every export one arm of the child loop emits is explained by that
child, with the source's kind classification. -/
theorem jsExportOfChild_some (content : String) (lines : List String) (r : Nat)
    (c : JsNode) (e : Export) (h : jsExportOfChild content lines r c = some e) :
    jsChildExplains c e := by
  unfold jsExportOfChild at h
  unfold jsChildExplains
  by_cases h1 : (c.kind == "function_declaration" || c.kind == "function") = true
  · rw [if_pos h1] at h
    rcases hn : c.nameNode with _ | ⟨name, row⟩
    · rw [hn] at h
      cases h
    · rw [hn] at h
      simp only [Option.some.injEq] at h
      subst h
      exact Or.inl ⟨by simpa using h1, rfl, row, by simp [hn], rfl⟩
  · rw [if_neg h1] at h
    by_cases h2 : (c.kind == "class_declaration" || c.kind == "class") = true
    · rw [if_pos h2] at h
      rcases hn : c.nameNode with _ | ⟨name, row⟩
      · rw [hn] at h
        cases h
      · rw [hn] at h
        simp only [Option.some.injEq] at h
        subst h
        exact Or.inr (Or.inl ⟨by simpa using h2, rfl, row, by simp [hn], rfl⟩)
    · rw [if_neg h2] at h
      by_cases h3 : (c.kind == "lexical_declaration") = true
      · rw [if_pos h3] at h
        obtain ⟨hkind, d, hd, hdk, row, hrow, hline⟩ :=
          findDeclarator_some content c.children e h
        exact Or.inr (Or.inr (Or.inl ⟨by simpa using h3, hkind,
          d, hd, hdk, row, hrow, hline⟩))
      · rw [if_neg h3] at h
        by_cases h4 : (c.kind == "type_alias_declaration") = true
        · rw [if_pos h4] at h
          rcases hn : c.nameNode with _ | ⟨name, row⟩
          · rw [hn] at h
            cases h
          · rw [hn] at h
            simp only [Option.some.injEq] at h
            subst h
            exact Or.inr (Or.inr (Or.inr (Or.inl
              ⟨by simpa using h4, rfl, row, by simp [hn], rfl⟩)))
        · rw [if_neg h4] at h
          by_cases h5 : (c.kind == "interface_declaration") = true
          · rw [if_pos h5] at h
            rcases hn : c.nameNode with _ | ⟨name, row⟩
            · rw [hn] at h
              cases h
            · rw [hn] at h
              simp only [Option.some.injEq] at h
              subst h
              exact Or.inr (Or.inr (Or.inr (Or.inr (Or.inl
                ⟨by simpa using h5, rfl, row, by simp [hn], rfl⟩))))
          · rw [if_neg h5] at h
            by_cases h6 : (c.kind == "enum_declaration") = true
            · rw [if_pos h6] at h
              rcases hn : c.nameNode with _ | ⟨name, row⟩
              · rw [hn] at h
                cases h
              · rw [hn] at h
                simp only [Option.some.injEq] at h
                subst h
                exact Or.inr (Or.inr (Or.inr (Or.inr (Or.inr
                  ⟨by simpa using h6, rfl, row, by simp [hn], rfl⟩))))
            · rw [if_neg h6] at h
              cases h

/-- Claim C2 (amended): for Rust, the export list keeps exactly the query
matches whose visibility-modifier text contains the substring `"pub"` —
which also admits the restricted, non-public `pub(crate)` / `pub(super)` /
`pub(self)` forms — and whose name capture is non-empty, each classified
with the kind of the matched pattern and located at its name row plus one.
For JS/TS, `extract_export_from_node` emits AT MOST ONE export per
`export_statement` — the first declaration child whose arm matches — and
every emitted export is read off a declaration child of the export
statement (hence an export-marked, publicly exported declaration) with the
correct kind classification (function → Function, class → Class, first
variable declarator of a lexical declaration → Const, type alias → Type,
interface → Trait, enum → Enum); later declarators of the same statement
are omitted (see `export_extraction_cex`). -/
theorem export_extraction_visibility (content : String) (lines : List String)
    (mt : RustExportMatch) (node : JsNode) :
    ((processRustMatch content mt).isSome
        = (containsSub mt.visText "pub" && !(mt.nameText == ""))) ∧
      (∀ e, processRustMatch content mt = some e →
        e.kind = mt.itemTag ∧ e.name = mt.nameText ∧
          e.line_number = mt.nameRow + 1) ∧
      (∀ e, extract_export_from_node content lines node = some e →
        ∃ c ∈ node.children,
          jsExportOfChild content lines node.startRow c = some e ∧
            jsChildExplains c e) := by
  refine ⟨?_, ?_, ?_⟩
  · unfold processRustMatch
    by_cases h : (containsSub mt.visText "pub" && !(mt.nameText == "")) = true
    · simp only [h, if_pos]
      simp [h]
    · simp only [Bool.not_eq_true] at h
      simp [h]
  · intro e he
    unfold processRustMatch at he
    by_cases h : (containsSub mt.visText "pub" && !(mt.nameText == "")) = true
    · rw [if_pos h] at he
      injection he with he
      subst he
      exact ⟨rfl, rfl, rfl⟩
    · rw [if_neg h] at he
      cases he
  · intro e he
    unfold extract_export_from_node at he
    obtain ⟨c, hc, hce⟩ := findSome_eq_some_mem _ _ _ he
    exact ⟨c, hc, hce, jsExportOfChild_some content lines node.startRow c e hce⟩

/-- Claim C2 counterexample, both halves of the claim.  Rust: for
`pub(crate) fn helper()` the export query matches with `visibility_modifier`
text `"pub(crate)"`, and since `"pub(crate)".contains("pub")` holds the
parser includes `helper`, although Rust's visibility rules mark a
`pub(crate)` item crate-internal, not publicly exported.  JS/TS: for
`export const a = 1, b = 2;` — whose export statement publicly exports BOTH
`a` and `b` — `extract_export_from_node` returns only the export for `a`
(the first variable declarator), so the export list is not exactly the
publicly exported declarations on either path. -/
theorem export_extraction_cex :
    (processRustMatch "pub(crate) fn helper()"
        ⟨"pub(crate)", "helper", 0, ExportKind.Function, 0⟩).isSome = true ∧
      rustVisibilityPublic "pub(crate)" = false ∧
      extract_export_from_node "export const a = 1, b = 2;"
        (rustLines "export const a = 1, b = 2;")
        (JsNode.node "export_statement" none 0
          [JsNode.node "export" none 0 [],
           JsNode.node "lexical_declaration" none 0
             [JsNode.node "const" none 0 [],
              JsNode.node "variable_declarator" (some ("a", 0)) 0 [],
              JsNode.node "," none 0 [],
              JsNode.node "variable_declarator" (some ("b", 0)) 0 []]])
        = some ⟨"a", ExportKind.Const, none, "", 1⟩ :=
  ⟨rfl, rfl, by decide⟩


/-- Claim C8 counterexample: for the JS/TS import string `"./a/b"`, the
parser keeps the whole quote-stripped path as `source` and leaves `items`
empty — the claim instead requires `source` to be the leading segment (`.`)
and `items` the trailing segments (`a`, `b`) of the path split by the
language's separator. -/
theorem extract_import_cex :
    (extract_import_from_node "\"./a/b\"").source = "./a/b" ∧
      (extract_import_from_node "\"./a/b\"").items = [] :=
  ⟨rfl, rfl⟩

/-- Character-level splitting never returns the empty list. -/
theorem splitCC_ne_nil (l : List Char) : splitCC l ≠ [] := by
  rw [splitCC.eq_def]
  split
  · simp
  · simp
  · split <;> simp

/-- Three-way De Morgan step used for the external-import classifiers. -/
theorem bool3_iff (x y z : Bool) :
    (!x && !y && !z) = true ↔ ¬(x = true ∨ y = true ∨ z = true) := by
  cases x <;> cases y <;> cases z <;> decide

/-- Reassembling a non-empty list from its head and its tail (under the
source's `len > 1` guard). -/
theorem cons_headD_tail (l : List String) (hl : l ≠ []) :
    l.headD "" :: (if l.length > 1 then l.drop 1 else []) = l := by
  cases l with
  | nil => exact absurd rfl hl
  | cons s rest =>
    cases rest with
    | nil => simp
    | cons a t => simp

/-- Splitting a path at `::` always yields at least one segment. -/
theorem rustSplitPath_ne_nil (path : String) : rustSplitPath path ≠ [] := by
  unfold rustSplitPath
  intro h
  exact splitCC_ne_nil _ (List.map_eq_nil_iff.mp h)

/-- Claim C8 (amended): a Rust `use` import is split at `::` — `source` is
the leading segment and `items` are exactly the trailing segments (so
`source :: items` reassembles the full segment list) — and it is external
iff the path lacks the `crate::` / `self::` / `super::` internal markers; a
JS/TS import instead keeps the whole quote-stripped module string as
`source`, always has empty `items`, and is external iff the string lacks the
`.` / `/` / `@/` internal markers. -/
theorem import_construction (path sraw : String) :
    (rustImportOf path).source :: (rustImportOf path).items
        = rustSplitPath path ∧
      ((rustImportOf path).is_external = true ↔
        ¬(path.startsWith "crate::" = true ∨ path.startsWith "self::" = true ∨
          path.startsWith "super::" = true)) ∧
      (extract_import_from_node sraw).source = trimMatchesQuote sraw ∧
      (extract_import_from_node sraw).items = [] ∧
      ((extract_import_from_node sraw).is_external = true ↔
        ¬((trimMatchesQuote sraw).startsWith "." = true ∨
          (trimMatchesQuote sraw).startsWith "/" = true ∨
          (trimMatchesQuote sraw).startsWith "@/" = true)) := by
  have hext : (rustImportOf path).is_external
      = (!(path.startsWith "crate::") && !(path.startsWith "self::") &&
        !(path.startsWith "super::")) := by
    simp only [rustImportOf]
  have hsrc : (extract_import_from_node sraw).source = trimMatchesQuote sraw := by
    simp only [extract_import_from_node]
  have hitems : (extract_import_from_node sraw).items = [] := by
    simp only [extract_import_from_node]
  have hext2 : (extract_import_from_node sraw).is_external
      = (!((trimMatchesQuote sraw).startsWith ".") &&
        !((trimMatchesQuote sraw).startsWith "/") &&
        !((trimMatchesQuote sraw).startsWith "@/")) := by
    simp only [extract_import_from_node]
  refine ⟨?_, by rw [hext]; exact bool3_iff _ _ _, hsrc, hitems,
    by rw [hext2]; exact bool3_iff _ _ _⟩
  have h1 : (rustImportOf path).source = (rustSplitPath path).headD "" := rfl
  have h2 : (rustImportOf path).items
      = (if (rustSplitPath path).length > 1
        then (rustSplitPath path).drop 1 else []) := by
    simp only [rustImportOf]
  rw [h1, h2]
  exact cons_headD_tail _ (rustSplitPath_ne_nil path)


/-- Claim C4: per-file enrichment retry.  A failure whose message carries a
rate-limit/overload signature is retried up to the cap of 3 attempts with an
exponentially doubling backoff (2 then 4 seconds): a capability failing
transiently twice then succeeding on the third attempt yields the success
after exactly two backoff sleeps and three calls.  A failure without such a
signature causes no further attempts — exactly one call, no sleeps — and the
per-file task then falls back to the structural-only summary with
`has_deep_analysis = false`. -/
theorem retry_backoff_behavior
    (call call2 : Nat → Except String String)
    (parseFn : String → Language → Except String ParseResult)
    (path : String) (lang : Language) (content : String)
    (e0 e1 e2 r : String)
    (h0 : call 0 = .error e0) (t0 : transientErr e0 = true)
    (h1 : call 1 = .error e1) (t1 : transientErr e1 = true)
    (h2 : call 2 = .ok r)
    (g0 : call2 0 = .error e2) (gnt : transientErr e2 = false)
    (hsize : ¬ contentByteLen content > 100000) :
    analyze_module_with_llm_retry call 3 = ⟨.ok r, [2, 4], 3⟩ ∧
      analyze_module_with_llm_retry call2 3 = ⟨.error e2, [], 1⟩ ∧
      (processFileTask call2 parseFn path lang content).module.summary
          = fallbackSummary lang (parseOrEmpty parseFn content lang) ∧
      (processFileTask call2 parseFn path lang content).module.has_deep_analysis
          = false := by
  have hr2 : analyze_module_with_llm_retry call2 3 = ⟨.error e2, [], 1⟩ := by
    unfold analyze_module_with_llm_retry
    rw [retryAux]
    simp only [g0, gnt]
    norm_num
  refine ⟨?_, hr2, ?_, ?_⟩
  · unfold analyze_module_with_llm_retry
    rw [retryAux]
    simp only [h0, t0]
    norm_num
    rw [retryAux]
    simp only [h1, t1]
    norm_num
    rw [retryAux]
    simp only [h2]
    norm_num
  · unfold processFileTask
    rw [if_neg hsize, hr2]
  · unfold processFileTask
    rw [if_neg hsize, hr2]

/-- Witness for `retry_backoff_behavior` at concrete capabilities: one
failing twice with `rate_limit` then succeeding, one failing once with a
terminal message. -/
theorem retry_backoff_behavior_witness :
    analyze_module_with_llm_retry
        (fun n => if n < 2 then .error "rate_limit" else .ok "deep") 3
        = ⟨.ok "deep", [2, 4], 3⟩ ∧
      analyze_module_with_llm_retry (fun _ => .error "bad request") 3
        = ⟨.error "bad request", [], 1⟩ ∧
      (processFileTask (fun _ => .error "bad request")
            (fun _ _ => .ok ⟨[], []⟩) "a.rs" Language.Rust "x").module.summary
        = fallbackSummary Language.Rust
            (parseOrEmpty (fun _ _ => .ok ⟨[], []⟩) "x" Language.Rust) ∧
      (processFileTask (fun _ => .error "bad request")
            (fun _ _ => .ok ⟨[], []⟩) "a.rs" Language.Rust
            "x").module.has_deep_analysis
        = false :=
  retry_backoff_behavior
    (fun n => if n < 2 then .error "rate_limit" else .ok "deep")
    (fun _ => .error "bad request")
    (fun _ _ => .ok ⟨[], []⟩) "a.rs" Language.Rust "x"
    "rate_limit" "rate_limit" "bad request" "deep"
    rfl rfl rfl rfl rfl rfl rfl (by decide)

/-- Byte length of a run of `n` ASCII characters. -/
theorem contentByteLen_mk_replicate (n : Nat) :
    contentByteLen (String.mk (List.replicate n 'a')) = n := by
  have haux : ∀ (m acc : Nat),
      (List.replicate m 'a').foldl (fun k c => k + c.utf8Size) acc = acc + m := by
    intro m
    induction m with
    | zero => intro acc; simp
    | succ m ih =>
      intro acc
      rw [List.replicate_succ, List.foldl_cons, ih]
      have h1 : ('a').utf8Size = 1 := rfl
      rw [h1]
      omega
  unfold contentByteLen
  have h : (String.mk (List.replicate n 'a')).toList = List.replicate n 'a' := rfl
  rw [h, haux n 0]
  omega

/-- Concatenating the batches returns the batched list (for a positive
batch size). -/
theorem chunksOf_flatten (n : Nat) (hn : 0 < n) (l : List SourceFile) :
    (chunksOf n l).flatten = l := by
  have H : ∀ (k : Nat) (l : List SourceFile), l.length ≤ k →
      (chunksOf n l).flatten = l := by
    intro k
    induction k with
    | zero =>
      intro l hl
      have hnil : l = [] := List.length_eq_zero.mp (Nat.le_zero.mp hl)
      subst hnil
      rw [chunksOf]
      simp
    | succ k ih =>
      intro l hl
      rw [chunksOf]
      split
      · rename_i h
        rcases h with h | h
        · omega
        · subst h; rfl
      · rename_i h
        push_neg at h
        rw [List.flatten_cons, ih (l.drop n) ?_, List.take_append_drop]
        have := List.length_pos.mpr h.2
        simp only [List.length_drop]
        omega
  exact H l.length l le_rfl

/-- Every remaining file whose read succeeds contributes its task's module
to the streaming result. -/
theorem mem_analyze_streaming_of_remaining
    (reads : String → Except String String)
    (parseFn : String → Language → Except String ParseResult)
    (llmFor : String → Nat → Except String String)
    (provider : LlmProviderM)
    (completed : List String) (inv : FileInventory) (par : Nat)
    (f : SourceFile) (content : String)
    (hpar : 0 < par)
    (hf : f ∈ remainingFiles completed inv)
    (hr : reads f.path = .ok content) :
    (processFileTask (llmFor f.path) parseFn f.path f.language content).module
      ∈ (analyze_streaming reads parseFn llmFor provider completed inv
          par).modules := by
  have hmods : (analyze_streaming reads parseFn llmFor provider completed inv
        par).modules
      = (chunksOf par (remainingFiles completed inv)).flatMap
          (batchModules reads parseFn llmFor)
        ++ completed.map placeholderModule := by
    simp only [analyze_streaming]
  rw [hmods]
  apply List.mem_append_left
  rw [List.mem_flatMap]
  have hmem : f ∈ (chunksOf par (remainingFiles completed inv)).flatten := by
    rw [chunksOf_flatten par hpar]
    exact hf
  obtain ⟨batch, hb, hfb⟩ := List.mem_flatten.mp hmem
  refine ⟨batch, hb, ?_⟩
  unfold batchModules
  apply List.mem_append_right
  apply List.mem_filterMap.mpr
  exact ⟨f, hfb, by rw [hr]⟩

/-- Evaluation of the oversized content's byte length. -/
theorem contentByteLen_bigContent : contentByteLen bigContent = 100001 := by
  have haux : ∀ (m acc : Nat),
      (List.replicate m 'a').foldl (fun k c => k + c.utf8Size) acc = acc + m := by
    intro m
    induction m with
    | zero => intro acc; simp
    | succ m ih =>
      intro acc
      rw [List.replicate_succ, List.foldl_cons, ih]
      have h1 : ('a').utf8Size = 1 := rfl
      rw [h1]
      omega
  unfold contentByteLen bigContent
  rw [show (String.mk (List.replicate 100001 'a')).toList
      = List.replicate 100001 'a' from rfl, haux 100001 0]

/-- The oversized content exceeds the 100,000-byte enrichment threshold. -/
theorem bigContent_gt : contentByteLen bigContent > 100000 := by
  rw [contentByteLen_bigContent]
  decide

/-- Claim C7: in a streaming run, a file whose content exceeds the
100,000-byte threshold never triggers an invocation of the enrichment
capability (the instrumented call count is 0 and the delay list empty), and
its module is recorded with `has_deep_analysis = false` and the
too-large placeholder summary; that module is part of the returned
analysis. -/
theorem streaming_large_file_guard
    (reads : String → Except String String)
    (parseFn : String → Language → Except String ParseResult)
    (llmFor : String → Nat → Except String String)
    (provider : LlmProviderM)
    (completed : List String) (inv : FileInventory) (par : Nat)
    (f : SourceFile) (content : String)
    (hpar : 0 < par)
    (hf : f ∈ remainingFiles completed inv)
    (hr : reads f.path = .ok content)
    (hbig : contentByteLen content > 100000) :
    processFileTask (llmFor f.path) parseFn f.path f.language content
        = ⟨⟨f.path, f.language, (parseOrEmpty parseFn content f.language).exports,
            (parseOrEmpty parseFn content f.language).imports,
            tooLargeSummary f.language (parseOrEmpty parseFn content f.language),
            false⟩, [], 0⟩ ∧
      (processFileTask (llmFor f.path) parseFn f.path f.language content).module
        ∈ (analyze_streaming reads parseFn llmFor provider completed inv
            par).modules := by
  have hTask : processFileTask (llmFor f.path) parseFn f.path f.language content
      = ⟨⟨f.path, f.language, (parseOrEmpty parseFn content f.language).exports,
          (parseOrEmpty parseFn content f.language).imports,
          tooLargeSummary f.language (parseOrEmpty parseFn content f.language),
          false⟩, [], 0⟩ := by
    unfold processFileTask
    rw [if_pos hbig]
  exact ⟨hTask, mem_analyze_streaming_of_remaining reads parseFn llmFor
    provider completed inv par f content hpar hf hr⟩

/-- Witness for `streaming_large_file_guard` on a one-file inventory whose
content is 100,001 bytes long. -/
theorem streaming_large_file_guard_witness :
    processFileTask ((fun _ _ => .error "x") bigFile.path)
        (fun _ _ => .ok ⟨[], []⟩) bigFile.path bigFile.language bigContent
        = ⟨⟨bigFile.path, bigFile.language,
            (parseOrEmpty (fun _ _ => .ok ⟨[], []⟩) bigContent
              bigFile.language).exports,
            (parseOrEmpty (fun _ _ => .ok ⟨[], []⟩) bigContent
              bigFile.language).imports,
            tooLargeSummary bigFile.language
              (parseOrEmpty (fun _ _ => .ok ⟨[], []⟩) bigContent
                bigFile.language),
            false⟩, [], 0⟩ ∧
      (processFileTask ((fun _ _ => .error "x") bigFile.path)
          (fun _ _ => .ok ⟨[], []⟩) bigFile.path bigFile.language
          bigContent).module
        ∈ (analyze_streaming (fun _ => .ok bigContent)
            (fun _ _ => .ok ⟨[], []⟩) (fun _ _ => .error "x")
            (fun _ _ => .error "no provider") [] ⟨[bigFile]⟩ 1).modules :=
  streaming_large_file_guard (fun _ => .ok bigContent)
    (fun _ _ => .ok ⟨[], []⟩) (fun _ _ => .error "x")
    (fun _ _ => .error "no provider") [] ⟨[bigFile]⟩ 1 bigFile bigContent
    Nat.zero_lt_one (List.Mem.head _) rfl bigContent_gt



/-- Every file of a batch contributes exactly one module: either the inline
read-failure module or its task's module. -/
theorem batchModules_length (reads : String → Except String String)
    (parseFn : String → Language → Except String ParseResult)
    (llmFor : String → Nat → Except String String)
    (batch : List SourceFile) :
    (batchModules reads parseFn llmFor batch).length = batch.length := by
  unfold batchModules
  rw [List.length_append]
  induction batch with
  | nil => rfl
  | cons f fs ih =>
    simp only [List.filterMap_cons]
    cases hr : reads f.path with
    | error e =>
      simp only [List.length_cons]
      omega
    | ok c =>
      simp only [List.length_cons]
      omega


/-- Batched processing produces one module per batched file. -/
theorem flatMap_batchModules_length (reads : String → Except String String)
    (parseFn : String → Language → Except String ParseResult)
    (llmFor : String → Nat → Except String String)
    (bs : List (List SourceFile)) :
    (bs.flatMap (batchModules reads parseFn llmFor)).length
      = bs.flatten.length := by
  induction bs with
  | nil => rfl
  | cons b bs ih =>
    simp only [List.flatMap_cons, List.flatten_cons, List.length_append,
      batchModules_length, ih]

/-- The files kept by the resume filter and the files skipped by it
partition the inventory. -/
theorem remaining_plus_kept (completed : List String) (l : List SourceFile) :
    (l.filter (fun f => !(completed.contains f.path))).length
      + (l.filter (fun f => completed.contains f.path)).length = l.length := by
  induction l with
  | nil => rfl
  | cons f fs ih =>
    rw [List.filter_cons, List.filter_cons]
    cases h : completed.contains f.path with
    | false =>
      simp only [Bool.not_false, if_pos trivial]
      rw [if_neg (by simp)]
      simp only [List.length_cons]
      omega
    | true =>
      simp only [Bool.not_true, if_pos trivial]
      rw [if_neg (by simp)]
      simp only [List.length_cons]
      omega

/-- Counting skipped files equals counting their paths. -/
theorem kept_eq_paths (completed : List String) (l : List SourceFile) :
    (l.filter (fun f => completed.contains f.path)).length
      = ((l.map SourceFile.path).filter (fun x => completed.contains x)).length := by
  induction l with
  | nil => rfl
  | cons f fs ih =>
    rw [List.map_cons, List.filter_cons, List.filter_cons]
    cases h : completed.contains f.path with
    | false =>
      rw [if_neg (by simp), if_neg (by simp)]
      exact ih
    | true =>
      rw [if_pos rfl, if_pos rfl]
      simp only [List.length_cons, ih]

/-- With distinct inventory paths and a duplicate-free checkpoint contained
in them, the checkpointed paths are hit exactly once each. -/
theorem countP_paths (completed : List String) (paths : List String)
    (hNod : paths.Nodup) (hNodC : completed.Nodup)
    (hsub : ∀ p ∈ completed, p ∈ paths) :
    (paths.filter (fun x => completed.contains x)).length
      = completed.length := by
  have hperm : List.Perm (paths.filter (fun x => completed.contains x))
      completed := by
    apply (List.perm_ext_iff_of_nodup (hNod.filter _) hNodC).mpr
    intro x
    simp only [List.mem_filter]
    constructor
    · rintro ⟨hx, hcx⟩
      exact List.elem_iff.mp hcx
    · intro hx
      exact ⟨hsub x hx, List.elem_iff.mpr hx⟩
  exact hperm.length_eq

/-- The resume filter leaves exactly `N - K` files. -/
theorem remainingFiles_length (completed : List String) (inv : FileInventory)
    (hinv : (inv.source_files.map SourceFile.path).Nodup)
    (hc : completed.Nodup)
    (hsub : ∀ p ∈ completed, p ∈ inv.source_files.map SourceFile.path) :
    (remainingFiles completed inv).length
      = inv.source_files.length - completed.length := by
  unfold remainingFiles
  have h1 := remaining_plus_kept completed inv.source_files
  have h2 := kept_eq_paths completed inv.source_files
  have h3 := countP_paths completed (inv.source_files.map SourceFile.path)
    hinv hc hsub
  have h4 : (inv.source_files.map SourceFile.path).length
      = inv.source_files.length := List.length_map _ _
  omega

/-- Claim C5: for an inventory of `N` distinct files and a checkpoint
already containing `K` of their paths (`K < N`), a streaming run processes
exactly the `N − K` remaining files, and the final analysis holds `N`
modules: one per processed file plus, for each checkpointed path, a
placeholder module with `has_deep_analysis = true`, empty exports and
imports, and summary `"(previously analyzed)"` (the fields of
`placeholderModule`). -/

theorem streaming_resume
    (reads : String → Except String String)
    (parseFn : String → Language → Except String ParseResult)
    (llmFor : String → Nat → Except String String)
    (provider : LlmProviderM)
    (completed : List String) (inv : FileInventory) (par K N : Nat)
    (hpar : 0 < par)
    (hinv : (inv.source_files.map SourceFile.path).Nodup)
    (hc : completed.Nodup)
    (hsub : ∀ p ∈ completed, p ∈ inv.source_files.map SourceFile.path)
    (hK : completed.length = K) (hN : inv.source_files.length = N)
    (hKN : K < N) :
    (remainingFiles completed inv).length = N - K ∧
      (analyze_streaming reads parseFn llmFor provider completed inv
        par).modules.length = N ∧
      ∀ p ∈ completed, placeholderModule p
        ∈ (analyze_streaming reads parseFn llmFor provider completed inv
            par).modules := by
  have hrem : (remainingFiles completed inv).length = N - K := by
    rw [remainingFiles_length completed inv hinv hc hsub, hK, hN]
  have hmods : (analyze_streaming reads parseFn llmFor provider completed inv
        par).modules
      = (chunksOf par (remainingFiles completed inv)).flatMap
          (batchModules reads parseFn llmFor)
        ++ completed.map placeholderModule := by
    simp only [analyze_streaming]
  refine ⟨hrem, ?_, ?_⟩
  · rw [hmods, List.length_append, flatMap_batchModules_length,
      chunksOf_flatten par hpar, hrem, List.length_map, hK]
    omega
  · intro p hp
    rw [hmods]
    exact List.mem_append_right _ (List.mem_map.mpr ⟨p, hp, rfl⟩)

/-- Witness for `streaming_resume`: two files, one already checkpointed. -/
theorem streaming_resume_witness :
    (remainingFiles ["a.rs"]
        ⟨[⟨"a.rs", Language.Rust, 1⟩, ⟨"b.rs", Language.Rust, 1⟩]⟩).length
        = 2 - 1 ∧
      (analyze_streaming (fun _ => .ok "") (fun _ _ => .ok ⟨[], []⟩)
        (fun _ _ => .error "e") (fun _ _ => .error "p") ["a.rs"]
        ⟨[⟨"a.rs", Language.Rust, 1⟩, ⟨"b.rs", Language.Rust, 1⟩]⟩
        1).modules.length = 2 ∧
      ∀ p ∈ ["a.rs"], placeholderModule p
        ∈ (analyze_streaming (fun _ => .ok "") (fun _ _ => .ok ⟨[], []⟩)
            (fun _ _ => .error "e") (fun _ _ => .error "p") ["a.rs"]
            ⟨[⟨"a.rs", Language.Rust, 1⟩, ⟨"b.rs", Language.Rust, 1⟩]⟩
            1).modules :=
  streaming_resume (fun _ => .ok "") (fun _ _ => .ok ⟨[], []⟩)
    (fun _ _ => .error "e") (fun _ _ => .error "p") ["a.rs"]
    ⟨[⟨"a.rs", Language.Rust, 1⟩, ⟨"b.rs", Language.Rust, 1⟩]⟩ 1 1 2
    (by decide) (by decide) (by decide) (by decide) rfl rfl (by decide)


/-- Indexing with default stays in the left part of an append. -/
theorem getD_append_left (l₁ l₂ : List String) (i : Nat) (h : i < l₁.length) :
    (l₁ ++ l₂).getD i "" = l₁.getD i "" := by
  simp only [List.getD, List.get?_eq_getElem?]
  rw [List.getElem?_append_left h]

/-- The element just before the walk's start is the last line of `pre`. -/
theorem getLast_getElem (p : String) (ps tail : List String) :
    ((p :: ps) ++ tail)[ps.length]? = some ((p :: ps).getLastD "") := by
  rw [List.getElem?_append_left (by simp)]
  have h1 : (p :: ps)[ps.length]? = (p :: ps).getLast? := by
    rw [List.getLast?_eq_getElem?]
    simp
  rw [h1]
  have h2 := List.getLast?_isSome.mpr (List.cons_ne_nil p ps)
  obtain ⟨x, hx⟩ := Option.isSome_iff_exists.mp h2
  rw [hx, List.getLastD_eq_getLast?, hx]
  rfl

/-- The walk stops immediately on an empty prefix or on a stop line. -/
theorem edcLoop_stop (tail pre acc : List String)
    (hstop : pre = [] ∨ isStopLine (pre.getLastD "") = true) :
    edcLoop (pre ++ tail) pre.length acc = some acc := by
  cases hp : pre with
  | nil => rfl
  | cons p ps =>
    subst hp
    rcases hstop with h | h
    · simp at h
    · simp only [isStopLine, Bool.and_eq_true, Bool.not_eq_true',
        Bool.or_eq_true, isDocLine, isSkipLine, isBlankLine] at h
      obtain ⟨⟨hdoc, hskip⟩, hblank⟩ := h
      rw [Bool.or_eq_false_iff] at hskip
      show edcLoop ((p :: ps) ++ tail) (ps.length + 1) acc = some acc
      rw [beq_eq_false_iff_ne] at hblank
      simp only [List.getLastD_eq_getLast?] at hdoc hskip hblank
      rw [edcLoop, getLast_getElem]
      simp only [List.getLastD_eq_getLast?]
      simp [hdoc, hskip.1, hskip.2, hblank]

/-- Indexing an append at the left part's length hits the appended line. -/
theorem getD_append_at_length (bs : List String) (b : String) :
    (bs ++ [b]).getD bs.length "" = b := by
  simp only [List.getD, List.get?_eq_getElem?]
  rw [List.getElem?_append_right (le_refl _)]
  simp

/-- The blank-line condition descends to the block without its last line,
when that last line is not a doc line. -/
theorem hblank_pop (bs : List String) (b : String) (acc : List String)
    (hd : isDocLine b = false)
    (hblank : ∀ i, i < (bs ++ [b]).length →
      isBlankLine ((bs ++ [b]).getD i "") = true →
      (∃ j, j < (bs ++ [b]).length ∧ i < j ∧
        isDocLine ((bs ++ [b]).getD j "") = true) ∨ acc ≠ []) :
    ∀ i, i < bs.length → isBlankLine (bs.getD i "") = true →
      (∃ j, j < bs.length ∧ i < j ∧ isDocLine (bs.getD j "") = true)
        ∨ acc ≠ [] := by
  intro i hi hbl
  have hi' : i < (bs ++ [b]).length := by simp; omega
  have hbl' : isBlankLine ((bs ++ [b]).getD i "") = true := by
    rw [getD_append_left _ _ _ hi]
    exact hbl
  rcases hblank i hi' hbl' with ⟨j, hj, hij, hdj⟩ | h
  · left
    by_cases hjb : j = bs.length
    · subst hjb
      rw [getD_append_at_length] at hdj
      rw [hdj] at hd
      cases hd
    · have hjlt : j < bs.length := by
        simp only [List.length_append, List.length_cons, List.length_nil] at hj
        omega
      refine ⟨j, hjlt, hij, ?_⟩
      rw [getD_append_left _ _ _ hjlt] at hdj
      exact hdj
  · right
    exact h

/-- One unfolded step of the backward walk at an in-range row. -/
theorem edcLoop_cons_some (lines : List String) (c : Nat)
    (docs : List String) (b : String) (hget : lines[c]? = some b) :
    edcLoop lines (c + 1) docs
      = (if startsWithS (rustTrim b) "///" = true then
          edcLoop lines c (docs ++ [stripDocLine (rustTrim b)])
        else if (startsWithS (rustTrim b) "//!" || startsWithS (rustTrim b) "#["
            || ((rustTrim b == "") && !docs.isEmpty)) = true then
          edcLoop lines c docs
        else some docs) := by
  rw [edcLoop, hget]

/-- The backward walk over a block of doc/attribute/module-comment/blank
lines (each blank having a doc line below it, or text already collected)
collects exactly the block's doc texts, bottom-most first, and stops at the
line above the block. -/
theorem edcLoop_block (block : List String) :
    ∀ (tail pre acc : List String),
      (∀ l ∈ block, (isDocLine l || isSkipLine l || isBlankLine l) = true) →
      (∀ i, i < block.length → isBlankLine (block.getD i "") = true →
        (∃ j, j < block.length ∧ i < j ∧
          isDocLine (block.getD j "") = true) ∨ acc ≠ []) →
      (pre = [] ∨ isStopLine (pre.getLastD "") = true) →
      edcLoop (pre ++ block ++ tail) (pre.length + block.length) acc
        = some (acc ++ (docTextsOf block).reverse) := by
  induction block using List.reverseRecOn with
  | nil =>
    intro tail pre acc _ _ hstop
    simp only [docTextsOf, List.filterMap_nil, List.reverse_nil,
      List.append_nil, List.length_nil, Nat.add_zero]
    exact edcLoop_stop tail pre acc hstop
  | append_singleton bs b ih =>
    intro tail pre acc hblock hblank hstop
    have hlen : pre.length + (bs ++ [b]).length = (pre.length + bs.length) + 1 := by
      simp only [List.length_append, List.length_cons, List.length_nil]
      omega
    have hassoc : pre ++ (bs ++ [b]) ++ tail = (pre ++ bs) ++ (b :: tail) := by
      simp [List.append_assoc]
    rw [hlen, hassoc]
    have hget : ((pre ++ bs) ++ (b :: tail))[pre.length + bs.length]? = some b := by
      rw [List.getElem?_append_right (by simp)]
      simp
    rw [edcLoop_cons_some _ _ _ b hget]
    have hb := hblock b (by simp)
    have hdt : docTextsOf (bs ++ [b])
        = docTextsOf bs ++
          (if isDocLine b then [stripDocLine (rustTrim b)] else []) := by
      unfold docTextsOf
      rw [List.filterMap_append]
      congr 1
      cases h : isDocLine b <;> simp [h]
    have hbl' : ∀ l ∈ bs, (isDocLine l || isSkipLine l || isBlankLine l) = true :=
      fun l hl => hblock l (by simp [hl])
    cases hd : isDocLine b with
    | true =>
      rw [if_pos (show startsWithS (rustTrim b) "///" = true from hd)]
      have hassoc2 : (pre ++ bs) ++ (b :: tail) = pre ++ bs ++ (b :: tail) := rfl
      rw [hassoc2, ih (b :: tail) pre (acc ++ [stripDocLine (rustTrim b)]) hbl'
        (fun i hi hbli => Or.inr (by simp)) hstop]
      rw [hdt, hd]
      simp [List.append_assoc]
    | false =>
      have hnd : startsWithS (rustTrim b) "///" = false := hd
      rw [if_neg (by simp [hnd])]
      have hblk' := hblank_pop bs b acc hd hblank
      cases hs : isSkipLine b with
      | true =>
        have hss : (startsWithS (rustTrim b) "//!"
            || startsWithS (rustTrim b) "#[") = true := hs
        rw [if_pos (by simp only [Bool.or_eq_true] at hss ⊢; tauto)]
        rw [ih (b :: tail) pre acc hbl' hblk' hstop, hdt, hd]
        simp
      | false =>
        have hbb : isBlankLine b = true := by
          rw [hd, hs] at hb
          simpa using hb
        have hacc : acc ≠ [] := by
          have hidx : isBlankLine ((bs ++ [b]).getD bs.length "") = true := by
            rw [getD_append_at_length]
            exact hbb
          rcases hblank bs.length (by simp) hidx with ⟨j, hj, hij, _⟩ | h
          · simp only [List.length_append, List.length_cons,
              List.length_nil] at hj
            omega
          · exact h
        have hcond : (startsWithS (rustTrim b) "//!"
            || startsWithS (rustTrim b) "#["
            || ((rustTrim b == "") && !acc.isEmpty)) = true := by
          have h1 : (rustTrim b == "") = true := hbb
          have h2 : acc.isEmpty = false := by
            cases acc with
            | nil => exact absurd rfl hacc
            | cons _ _ => rfl
          simp [h1, h2]
        rw [if_pos hcond]
        rw [ih (b :: tail) pre acc hbl' hblk' hstop, hdt, hd]
        simp

/-- Claim C6 (amended): for a declaration on the line right after a block of
lines each of which is a doc comment (`///`), a module comment (`//!`), an
attribute line (`#[`), or a blank line that still has a doc line below it
(between the blank and the declaration), with the line above the block —
if any — being none of these, `extract_doc_comment` returns exactly the
block's doc-comment texts in original top-to-bottom order, `///`-stripped
and trimmed, joined with single spaces and trimmed (and `none` when the
block holds no doc line).  The export's `description` is this value with
`none` defaulted to the empty string.  A blank line with no doc line below
it — in particular one directly between the comment block and the
declaration — stops collection instead, which is the correction to the
claim (see `doc_comment_blank_cex`). -/
theorem doc_comment_association (content : String)
    (pre block post : List String)
    (hlines : rustLines content = pre ++ block ++ post)
    (hblock : ∀ l ∈ block, (isDocLine l || isSkipLine l || isBlankLine l) = true)
    (hblank : ∀ i, i < block.length → isBlankLine (block.getD i "") = true →
      ∃ j, j < block.length ∧ i < j ∧ isDocLine (block.getD j "") = true)
    (hstop : pre = [] ∨ isStopLine (pre.getLastD "") = true)
    (hpost : post ≠ []) :
    extract_doc_comment content (pre.length + block.length + 1)
      = if docTextsOf block = [] then none
        else some (rustTrim (intercalateSpace (docTextsOf block))) := by
  unfold extract_doc_comment
  rw [hlines]
  have hlen : pre.length + block.length + 1 ≤ (pre ++ block ++ post).length := by
    simp only [List.length_append]
    cases post with
    | nil => exact absurd rfl hpost
    | cons _ _ =>
      simp only [List.length_cons]
      omega
  rw [if_neg (by
    simp only [Bool.or_eq_true, beq_iff_eq, decide_eq_true_eq, not_or]
    constructor
    · omega
    · omega)]
  have hsub : pre.length + block.length + 1 - 1 = pre.length + block.length := by
    omega
  rw [hsub, edcLoop_block block post pre [] hblock
    (fun i hi hb => Or.inl (hblank i hi hb)) hstop]
  simp only [List.nil_append, List.reverse_reverse]
  cases hdt : docTextsOf block with
  | nil => rfl
  | cons d ds =>
    rw [if_neg (by simp)]
    rw [if_neg (by simp)]

/-- Claim C6 counterexample: a public declaration whose doc comment is
separated from it by one blank line gets an EMPTY description — the walk
breaks on a blank line before any doc line has been collected — although the
claim promises the doc lines' text across blank separation. -/
theorem doc_comment_blank_cex :
    processRustMatch "/// doc\n\npub fn foo()"
        ⟨"pub", "foo", 2, ExportKind.Function, 2⟩
      = some ⟨"foo", ExportKind.Function, some "pub fn foo()", "", 3⟩ := by
  decide

/-- Witness for `doc_comment_association`: two doc lines separated by a
blank line above `pub fn foo()` yield the description `"a b"`. -/
theorem doc_comment_association_witness :
    extract_doc_comment "/// a\n\n/// b\npub fn foo()"
        (([] : List String).length
          + (["/// a", "", "/// b"] : List String).length + 1)
      = if docTextsOf ["/// a", "", "/// b"] = [] then none
        else some (rustTrim (intercalateSpace
          (docTextsOf ["/// a", "", "/// b"]))) :=
  doc_comment_association "/// a\n\n/// b\npub fn foo()" []
    ["/// a", "", "/// b"] ["pub fn foo()"]
    (by decide) (by decide)
    (by
      intro i hi hbl
      have hi3 : i < 3 := by simpa using hi
      interval_cases i
      · exact absurd hbl (by decide)
      · exact ⟨2, by decide, by decide, by decide⟩
      · exact absurd hbl (by decide))
    (Or.inl rfl) (by decide)


end CDA
